import Mathlib

/-!
Verification of the TCM prescription-analysis web application.

The source is TypeScript: `src/App.tsx`, `src/services/openaiService.ts`,
`src/components/*.tsx` and the Supabase client module (`src/unnamed/part_000`).
JavaScript strings are embedded as `List Char`, JavaScript numbers used by the
scoring algorithm as `ℚ`, fallible external calls (fetch, JSON.parse) as
`Option`/`Except`-valued oracles passed in as parameters, and the async
generators as functions from the list of decoded network reads to the list of
yielded items.
-/

/-- JavaScript strings are modelled as lists of characters. -/
abbrev JStr := List Char

/-- Whitespace as recognised by `String.prototype.trim` (ASCII part). -/
def isWsChar (c : Char) : Bool :=
  c = ' ' || c = '\t' || c = '\n' || c = '\r' || c = '\x0b' || c = '\x0c'

/-- Model of `s.trim()`: drop whitespace from both ends. -/
def trimL (s : JStr) : JStr :=
  ((s.dropWhile isWsChar).reverse.dropWhile isWsChar).reverse

/-- Model of `s.startsWith(p)` / list prefix test. -/
def startsWithL : JStr → JStr → Bool
  | [], _ => true
  | _ :: _, [] => false
  | p :: ps, c :: cs => p = c && startsWithL ps cs

/-- Model of `s.endsWith(p)`. -/
def endsWithL (s p : JStr) : Bool :=
  startsWithL p.reverse s.reverse

/-- Model of `s.includes(p)` (substring occurrence). -/
def containsSub : JStr → JStr → Bool
  | [], pat => startsWithL pat []
  | c :: cs, pat => startsWithL pat (c :: cs) || containsSub cs pat

/-- Concatenation of a list of strings (the order-preserving join). -/
def joinL (l : List JStr) : JStr := l.foldr (· ++ ·) []

theorem joinL_nil : joinL [] = [] := rfl

theorem joinL_cons (x : JStr) (xs : List JStr) : joinL (x :: xs) = x ++ joinL xs := rfl

theorem startsWithL_append (p r : JStr) : startsWithL p (p ++ r) = true := by
  induction p with
  | nil => rfl
  | cons c cs ih => simp [startsWithL, ih]

theorem endsWithL_append (x p : JStr) : endsWithL (x ++ p) p = true := by
  unfold endsWithL
  rw [List.reverse_append]
  exact startsWithL_append p.reverse x.reverse

/-! ### Spec-modelled scoring algorithm (`utils/tcmMath`)

`calculatePrescription` is imported by `App.tsx` from `./utils/tcmMath`, a file
that is not part of the sources; only its callers are.  The model below follows
the specification's words: the herb record is "name, dosage, nature/temperature
classification" (flavor and meridian tags only feed the unspecified weight
maps, which are therefore parameters); PTI is "a scalar 'thermal index'
computed as a weighted sum over herb temperature classifications and dosages"
("基于剂量x温度系数" — dosage × temperature coefficient, per the prompt text in
`openaiService.ts`); San Jiao is a "three-region distribution" of "three
percentage buckets" for which "percentages sum to total".  Per-burner weights
and signed per-burner contributions `ptiContribution * weight` follow the
displayed fields in `QiFlowVisualizer.tsx`. -/

/-- Modelled from the spec: the nature (four-qi) classification enumeration
fixed by the prompt in `generateHerbDataWithAI`:
大热, 热, 温, 微温, 平, 微寒, 凉, 寒, 大寒. -/
inductive Nature
  | daRe | re | wen | weiWen | ping | weiHan | liang | han | daHan
deriving DecidableEq, Repr

/-- The three San Jiao burners (upper/middle/lower). -/
inductive Burner
  | upper | middle | lower
deriving DecidableEq, Repr

/-- A parsed prescription entry: herb name and dosage in grams, plus its
nature classification looked up from the herb database. -/
structure InputHerb where
  name : String
  dosageGrams : ℚ
  nature : Nature
deriving DecidableEq, Repr

/-- A herb with its computed PTI contribution and burner weights
(the fields read by `App.tsx` and `QiFlowVisualizer.tsx`). -/
structure CalculatedHerb where
  name : String
  dosageGrams : ℚ
  nature : Nature
  ptiContribution : ℚ
  wUpper : ℚ
  wMiddle : ℚ
  wLower : ℚ
deriving DecidableEq, Repr

/-- One region of the San Jiao analysis: signed PTI and percentage bucket. -/
structure SanJiaoRegion where
  pti : ℚ
  percentage : ℚ
deriving DecidableEq, Repr

/-- The three-region San Jiao distribution. -/
structure SanJiaoAnalysis where
  upper : SanJiaoRegion
  middle : SanJiaoRegion
  lower : SanJiaoRegion
deriving DecidableEq, Repr

/-- The analysis result consumed by `App.tsx` (fields actually read:
`herbs`, `totalPTI`, `sanJiao`, `initialTotalDosage`). -/
structure AnalysisResult where
  herbs : List CalculatedHerb
  totalPTI : ℚ
  sanJiao : SanJiaoAnalysis
  initialTotalDosage : ℚ
deriving DecidableEq, Repr

/-- The burner weight stored on a calculated herb. -/
def burnerWeight (b : Burner) (ch : CalculatedHerb) : ℚ :=
  match b with
  | .upper => ch.wUpper
  | .middle => ch.wMiddle
  | .lower => ch.wLower

/-- Modelled from the spec: per-herb computation.  The contribution is
dosage × temperature coefficient; the burner weights come from the (otherwise
unspecified) weight-allocation map `bw`. -/
def calcHerb (coeff : Nature → ℚ) (bw : InputHerb → Burner → ℚ) (h : InputHerb) :
    CalculatedHerb :=
  { name := h.name
    dosageGrams := h.dosageGrams
    nature := h.nature
    ptiContribution := coeff h.nature * h.dosageGrams
    wUpper := bw h .upper
    wMiddle := bw h .middle
    wLower := bw h .lower }

/-- Unsigned mass a herb list assigns to one burner
(`|ptiContribution| * weight`, as displayed by `QiFlowVisualizer`). -/
def regionMass (chs : List CalculatedHerb) (b : Burner) : ℚ :=
  (chs.map (fun ch => |ch.ptiContribution| * burnerWeight b ch)).sum

/-- Signed PTI a herb list assigns to one burner. -/
def regionPti (chs : List CalculatedHerb) (b : Burner) : ℚ :=
  (chs.map (fun ch => ch.ptiContribution * burnerWeight b ch)).sum

/-- Total unsigned mass over the three burners. -/
def sanJiaoTotalMass (chs : List CalculatedHerb) : ℚ :=
  regionMass chs .upper + regionMass chs .middle + regionMass chs .lower

/-- Modelled from the spec: one San Jiao bucket; the percentage is this
burner's share of the total mass. -/
def regionOf (chs : List CalculatedHerb) (b : Burner) : SanJiaoRegion :=
  { pti := regionPti chs b
    percentage := regionMass chs b / sanJiaoTotalMass chs * 100 }

/-- Modelled from the spec: `calculatePrescription` from `utils/tcmMath`
(not under the sources; modelled per the spec as a single-pass weighted
aggregation producing the scalar index and the three percentage buckets). -/
def calculatePrescription (coeff : Nature → ℚ) (bw : InputHerb → Burner → ℚ)
    (herbs : List InputHerb) : AnalysisResult :=
  let chs := herbs.map (calcHerb coeff bw)
  { herbs := chs
    totalPTI := (chs.map (·.ptiContribution)).sum
    sanJiao :=
      { upper := regionOf chs .upper
        middle := regionOf chs .middle
        lower := regionOf chs .lower }
    initialTotalDosage := (herbs.map (·.dosageGrams)).sum }

/-- Claim C1: for every list of parsed herbs, the total PTI returned by
`calculatePrescription` equals the sum over the herbs of each herb's
individual `ptiContribution` — the score is the weighted
(dosage × temperature-coefficient) sum of herb contributions. -/
theorem c1_totalPTI_is_sum_of_contributions (coeff : Nature → ℚ)
    (bw : InputHerb → Burner → ℚ) (herbs : List InputHerb) :
    (calculatePrescription coeff bw herbs).totalPTI =
      (((calculatePrescription coeff bw herbs).herbs.map (·.ptiContribution)).sum) ∧
    (calculatePrescription coeff bw herbs).totalPTI =
      ((herbs.map (fun h => coeff h.nature * h.dosageGrams)).sum) := by
  constructor
  · rfl
  · show ((herbs.map (calcHerb coeff bw)).map (·.ptiContribution)).sum = _
    rw [List.map_map]
    rfl

/-- Claim C2 (amended): whenever the aggregate |contribution|·weight mass over
the three burners is nonzero, the three San Jiao percentages sum to 100. -/
theorem c2_percentages_sum_to_100 (coeff : Nature → ℚ)
    (bw : InputHerb → Burner → ℚ) (herbs : List InputHerb)
    (h : sanJiaoTotalMass ((calculatePrescription coeff bw herbs).herbs) ≠ 0) :
    (calculatePrescription coeff bw herbs).sanJiao.upper.percentage +
      (calculatePrescription coeff bw herbs).sanJiao.middle.percentage +
      (calculatePrescription coeff bw herbs).sanJiao.lower.percentage = 100 := by
  have h' : sanJiaoTotalMass ((herbs.map (calcHerb coeff bw))) ≠ 0 := h
  show regionMass _ .upper / sanJiaoTotalMass _ * 100 +
      regionMass _ .middle / sanJiaoTotalMass _ * 100 +
      regionMass _ .lower / sanJiaoTotalMass _ * 100 = 100
  rw [div_mul_eq_mul_div, div_mul_eq_mul_div, div_mul_eq_mul_div,
    div_add_div_same, div_add_div_same, ← add_mul, ← add_mul]
  rw [show regionMass (herbs.map (calcHerb coeff bw)) .upper +
        regionMass (herbs.map (calcHerb coeff bw)) .middle +
        regionMass (herbs.map (calcHerb coeff bw)) .lower =
      sanJiaoTotalMass (herbs.map (calcHerb coeff bw)) from rfl]
  rw [mul_comm, mul_div_assoc, div_self h', mul_one]

/-- Witness for C2: a concrete one-herb prescription with nonzero mass whose
percentages sum to 100. -/
theorem c2_percentages_sum_to_100_witness :
    sanJiaoTotalMass ((calculatePrescription (fun _ => 1) (fun _ _ => 1)
        [⟨"桂枝", 3, .wen⟩]).herbs) ≠ 0 ∧
    (calculatePrescription (fun _ => 1) (fun _ _ => 1)
        [⟨"桂枝", 3, .wen⟩]).sanJiao.upper.percentage +
      (calculatePrescription (fun _ => 1) (fun _ _ => 1)
        [⟨"桂枝", 3, .wen⟩]).sanJiao.middle.percentage +
      (calculatePrescription (fun _ => 1) (fun _ _ => 1)
        [⟨"桂枝", 3, .wen⟩]).sanJiao.lower.percentage = 100 := by
  have hm : sanJiaoTotalMass ((calculatePrescription (fun _ => 1) (fun _ _ => 1)
      [⟨"桂枝", 3, .wen⟩]).herbs) ≠ 0 := by
    simp only [sanJiaoTotalMass, regionMass, calculatePrescription, calcHerb, burnerWeight,
      List.map_cons, List.map_nil, List.sum_cons, List.sum_nil]
    norm_num
  exact ⟨hm, c2_percentages_sum_to_100 (fun _ => 1) (fun _ _ => 1)
    [⟨"桂枝", 3, .wen⟩] hm⟩

/-- Counterexample for C2 as stated: on the empty herb list every bucket is 0,
so the percentages sum to 0, not 100. -/
theorem c2_counterexample_empty_prescription :
    ¬((calculatePrescription (fun _ => 1) (fun _ _ => 1) []).sanJiao.upper.percentage +
      (calculatePrescription (fun _ => 1) (fun _ _ => 1) []).sanJiao.middle.percentage +
      (calculatePrescription (fun _ => 1) (fun _ _ => 1) []).sanJiao.lower.percentage = 100) := by
  simp [calculatePrescription, regionOf, regionMass, sanJiaoTotalMass]

/-- Claim C7: `calculatePrescription` is deterministic — two invocations on the
same input agree on the total PTI, the per-herb contributions and the San Jiao
distribution. -/
theorem c7_calculatePrescription_deterministic (coeff : Nature → ℚ)
    (bw : InputHerb → Burner → ℚ) (herbs : List InputHerb)
    (r₁ r₂ : AnalysisResult)
    (h₁ : r₁ = calculatePrescription coeff bw herbs)
    (h₂ : r₂ = calculatePrescription coeff bw herbs) :
    r₁.totalPTI = r₂.totalPTI ∧
    r₁.herbs.map (·.ptiContribution) = r₂.herbs.map (·.ptiContribution) ∧
    r₁.sanJiao = r₂.sanJiao := by
  subst h₁; subst h₂; exact ⟨rfl, rfl, rfl⟩

/-- Witness for C7 at a concrete prescription. -/
theorem c7_calculatePrescription_deterministic_witness :
    (calculatePrescription (fun _ => 1) (fun _ _ => 1) [⟨"附子", 9, .daRe⟩]).totalPTI =
      (calculatePrescription (fun _ => 1) (fun _ _ => 1) [⟨"附子", 9, .daRe⟩]).totalPTI ∧
    (calculatePrescription (fun _ => 1) (fun _ _ => 1)
        [⟨"附子", 9, .daRe⟩]).herbs.map (·.ptiContribution) =
      (calculatePrescription (fun _ => 1) (fun _ _ => 1)
        [⟨"附子", 9, .daRe⟩]).herbs.map (·.ptiContribution) ∧
    (calculatePrescription (fun _ => 1) (fun _ _ => 1) [⟨"附子", 9, .daRe⟩]).sanJiao =
      (calculatePrescription (fun _ => 1) (fun _ _ => 1) [⟨"附子", 9, .daRe⟩]).sanJiao :=
  c7_calculatePrescription_deterministic (fun _ => 1) (fun _ _ => 1)
    [⟨"附子", 9, .daRe⟩] _ _ rfl rfl

/-! ### `getBaseUrl` (`src/services/openaiService.ts`, both copies identical)

```ts
const getBaseUrl = (url?: string) => {
    let base = url ? url.trim() : "https://api.openai.com/v1";
    if (base.endsWith('/')) base = base.slice(0, -1);
    if (!base.endsWith('/v1') && !base.includes('/v1/')) base += '/v1';
    return base;
};
```
`url ? … : …` is JavaScript truthiness: `undefined` and the empty string both
take the default branch. -/

/-- The default base URL used when `url` is falsy. -/
def defaultBaseUrl : JStr := "https://api.openai.com/v1".data

/-- The suffix `/v1`. -/
def v1Suffix : JStr := "/v1".data

/-- The infix `/v1/`. -/
def v1Mid : JStr := "/v1/".data

/-- Model of `getBaseUrl` (`openaiService.ts` lines 332–337 and 873–878). -/
def getBaseUrl (url : Option JStr) : JStr :=
  let base0 : JStr :=
    match url with
    | some u => if u ≠ [] then trimL u else defaultBaseUrl
    | none => defaultBaseUrl
  let base1 : JStr := if endsWithL base0 ['/'] then base0.dropLast else base0
  if ¬(endsWithL base1 v1Suffix) ∧ ¬(containsSub base1 v1Mid) then base1 ++ v1Suffix
  else base1

/-- Claim C9 (amended): every result of `getBaseUrl` ends with `/v1` or
contains `/v1/`, and a missing input yields the default
`https://api.openai.com/v1`.  (The "never ends with `/`" and idempotence
parts of the claim fail, see the counterexample.) -/
theorem c9_getBaseUrl_v1_and_default (url : Option JStr) :
    (endsWithL (getBaseUrl url) v1Suffix = true ∨
      containsSub (getBaseUrl url) v1Mid = true) ∧
    getBaseUrl none = defaultBaseUrl := by
  constructor
  · unfold getBaseUrl
    set base0 : JStr :=
      match url with
      | some u => if u ≠ [] then trimL u else defaultBaseUrl
      | none => defaultBaseUrl with hbase0
    set base1 : JStr := if endsWithL base0 ['/'] then base0.dropLast else base0 with hbase1
    by_cases h : ¬(endsWithL base1 v1Suffix) ∧ ¬(containsSub base1 v1Mid)
    · simp only [h, if_pos]
      exact Or.inl (endsWithL_append base1 v1Suffix)
    · simp only [h, if_neg, not_false_eq_true]
      rcases not_and_or.mp h with h1 | h2
      · exact Or.inl (Bool.of_not_eq_false (fun hf => h1 (by simp [hf]) ))
      · exact Or.inr (Bool.of_not_eq_false (fun hf => h2 (by simp [hf]) ))
  · decide

/-- Counterexample for C9 as stated: on input `"/v1//"` the result `"/v1/"`
ends with `'/'`, and applying `getBaseUrl` to that result gives `"/v1"`,
so `getBaseUrl` is not idempotent. -/
theorem c9_counterexample_trailing_slash :
    endsWithL (getBaseUrl (some "/v1//".data)) ['/'] = true ∧
    getBaseUrl (some (getBaseUrl (some "/v1//".data))) ≠ getBaseUrl (some "/v1//".data) := by
  constructor
  · decide
  · decide

/-! ### `cleanJsonString` and `generateHerbDataWithAI`
(`src/services/openaiService.ts` lines 340–348/881–889 and 394–463/935–1003)

`cleanJsonString` extracts the contents of the first Markdown code fence via
`str.match(/```(?:json)?\s*([\s\S]*?)\s*```/i)`, returning `match[1].trim()`
when `match && match[1]` is truthy and `str.trim()` otherwise.  The regex is
modelled by its operational behaviour: the match anchors at the first fence
that has a closing fence; an optional case-insensitive `json` follows the
opening fence; the lazy group captures up to the next fence, with surrounding
whitespace stripped (the final `.trim()` makes the `\s*` boundaries
irrelevant except for the truthiness of the raw group). -/

/-- The backtick character (code 96). -/
def backtickChar : Char := Char.ofNat 96

/-- A Markdown code fence: three backticks. -/
def fenceMark : JStr := [backtickChar, backtickChar, backtickChar]

/-- First index at which a fence occurs, if any. -/
def findFence : JStr → Option Nat
  | [] => none
  | c :: cs =>
    if startsWithL fenceMark (c :: cs) then some 0
    else (findFence cs).map (· + 1)

/-- Model of `cleanJsonString`. -/
def cleanJsonString (s : JStr) : JStr :=
  match findFence s with
  | none => trimL s
  | some p =>
    let afterOpen := s.drop (p + 3)
    let afterJson :=
      if (afterOpen.take 4).map Char.toLower = "json".data then afterOpen.drop 4
      else afterOpen
    match findFence afterJson with
    | none => trimL s
    | some r =>
      let grp := trimL (afterJson.take r)
      if grp = [] then trimL s else grp

/-- The JSON object shape read out of the model reply by
`generateHerbDataWithAI` (fields accessed on the parsed value). -/
structure HerbJson where
  name : Option JStr
  nature : Option JStr
  flavors : Option (List JStr)
  meridians : Option (List JStr)
  efficacy : Option JStr
  usage : Option JStr
  category : Option JStr
  processing : Option JStr

/-- The herb record built from the parsed JSON (`BenCaoHerb` fields set by
`generateHerbDataWithAI`; `id` is time-dependent and omitted). -/
structure BenCaoHerb where
  name : JStr
  nature : Option JStr
  flavors : List JStr
  meridians : List JStr
  efficacy : Option JStr
  usage : Option JStr
  category : Option JStr
  processing : Option JStr

/-- Outcome of the `fetch` + `res.json()` + `data.choices?.[0]?.message?.content`
pipeline: a network/JSON-decode error, a non-ok HTTP status, or a response
whose (optionally missing) content string was extracted. -/
inductive ApiOutcome
  | netErr
  | httpErr
  | ok (content : Option JStr)

/-- Model of `generateHerbDataWithAI`.  `parse` is the `JSON.parse` oracle:
`none` means the call throws.  Every throw inside the `try` block (fetch
failure, non-ok status, JSON parse failure) is caught and turned into `null`;
only a missing API key escapes as an error. -/
def generateHerbDataWithAI (parse : JStr → Option HerbJson) (herbName : JStr)
    (apiKeyPresent : Bool) (outcome : ApiOutcome) :
    Except JStr (Option BenCaoHerb) :=
  if ¬apiKeyPresent then .error "API Key is missing".data
  else .ok <|
    match outcome with
    | .netErr => none
    | .httpErr => none
    | .ok none => none
    | .ok (some content) =>
      if content = [] then none
      else
        match parse (cleanJsonString content) with
        | none => none
        | some json =>
          some
            { name := match json.name with
                | some n => if n ≠ [] then n else herbName
                | none => herbName
              nature := json.nature
              flavors := json.flavors.getD []
              meridians := json.meridians.getD []
              efficacy := json.efficacy
              usage := json.usage
              category := json.category
              processing := json.processing }

/-- Claim C5: whenever the cleaned content of the model reply fails to parse
as JSON (the `JSON.parse` oracle throws), `generateHerbDataWithAI` returns
`null` instead of raising an error. -/
theorem c5_malformed_json_returns_null (parse : JStr → Option HerbJson)
    (herbName content : JStr)
    (h : parse (cleanJsonString content) = none) :
    generateHerbDataWithAI parse herbName true (.ok (some content)) = .ok none := by
  unfold generateHerbDataWithAI
  by_cases hc : content = []
  · simp [hc]
  · simp [hc, h]

/-- Witness for C5: a concrete non-JSON reply with an always-failing parse
oracle yields `null`. -/
theorem c5_malformed_json_returns_null_witness :
    (fun (_ : JStr) => (none : Option HerbJson)) (cleanJsonString "not json".data) = none ∧
    generateHerbDataWithAI (fun _ => none) "当归".data true (.ok (some "not json".data)) =
      .ok none :=
  ⟨rfl, c5_malformed_json_returns_null (fun _ => none) "当归".data "not json".data rfl⟩

/-! ### Server-sent-event stream reassembly
(`src/services/openaiService.ts`, `analyzePrescriptionWithAI` lines 1071–1100,
and the identical loop at lines 528–553)

The loop keeps a `buffer`, appends each decoded read, splits on `"\n"`,
keeps the final fragment as the new buffer (`buffer = lines.pop() || ""`),
and processes every complete line: lines whose trimmed form starts with
`"data: "` carry `dataStr = line.slice(6).trim()`; `"[DONE]"` returns,
otherwise `JSON.parse(dataStr)` is attempted and
`json.choices[0]?.delta?.content` is yielded when truthy, with parse errors
ignored.  `String.prototype.split("\n")` is modelled as a right fold. -/

/-- One step of `split("\n")` as a right fold: prepend `c` to the first line,
or open a new empty first line on a newline. -/
def stepNl (c : Char) (acc : List JStr) : List JStr :=
  match acc with
  | [] => [[c]]
  | l :: ls => if c = '\n' then [] :: l :: ls else (c :: l) :: ls

/-- `split("\n")` of `a` run into an explicit continuation `k`. -/
def linesF (a : JStr) (k : List JStr) : List JStr := a.foldr stepNl k

/-- Model of `s.split("\n")`: always nonempty, `[""]` on the empty string. -/
def lineList (s : JStr) : List JStr := linesF s [[]]

/-- All elements of a split except the final fragment. -/
def dropLastL : List JStr → List JStr
  | [] => []
  | [_] => []
  | x :: y :: ys => x :: dropLastL (y :: ys)

/-- The final fragment of a split (`lines.pop() || ""`). -/
def lastOr : List JStr → JStr
  | [] => []
  | [x] => x
  | _ :: y :: ys => lastOr (y :: ys)

/-- A string containing no newline. -/
def noNl (s : JStr) : Prop := '\n' ∉ s

theorem stepNl_ne_nil (c : Char) (acc : List JStr) : stepNl c acc ≠ [] := by
  cases acc with
  | nil => simp [stepNl]
  | cons l ls =>
    by_cases h : c = '\n' <;> simp [stepNl, h]

theorem linesF_ne_nil (a : JStr) (k : List JStr) (hk : k ≠ []) : linesF a k ≠ [] := by
  cases a with
  | nil => exact hk
  | cons c cs => exact stepNl_ne_nil c (linesF cs k)

theorem lineList_ne_nil (s : JStr) : lineList s ≠ [] :=
  linesF_ne_nil s [[]] (by simp)

theorem linesF_append (a b : JStr) (k : List JStr) :
    linesF (a ++ b) k = linesF a (linesF b k) :=
  List.foldr_append _ _ _ _

theorem dropLastL_cons_of_ne (x : JStr) (l : List JStr) (h : l ≠ []) :
    dropLastL (x :: l) = x :: dropLastL l := by
  cases l with
  | nil => exact absurd rfl h
  | cons y ys => rfl

theorem lastOr_cons_of_ne (x : JStr) (l : List JStr) (h : l ≠ []) :
    lastOr (x :: l) = lastOr l := by
  cases l with
  | nil => exact absurd rfl h
  | cons y ys => rfl

theorem dropLastL_append_cons (xs : List JStr) (y : JStr) (ys : List JStr) :
    dropLastL (xs ++ y :: ys) = xs ++ dropLastL (y :: ys) := by
  induction xs with
  | nil => rfl
  | cons x xs ih =>
    rw [List.cons_append, dropLastL_cons_of_ne x (xs ++ y :: ys) (by simp), ih,
      List.cons_append]

/-- Splitting `a` into a continuation `y :: ys` glues the last line of `a`
onto `y` and keeps everything else. -/
theorem linesF_cons_eq (a : JStr) (y : JStr) (ys : List JStr) :
    linesF a (y :: ys) =
      dropLastL (lineList a) ++ ((lastOr (lineList a)) ++ y) :: ys := by
  induction a with
  | nil => rfl
  | cons c a' ih =>
    have hne : lineList a' ≠ [] := lineList_ne_nil a'
    obtain ⟨m, ms, hm⟩ := List.exists_cons_of_ne_nil hne
    show stepNl c (linesF a' (y :: ys)) = _
    rw [ih]
    have hl : lineList (c :: a') = stepNl c (lineList a') := rfl
    by_cases hc : c = '\n'
    · subst hc
      rw [hm]
      have h1 : stepNl '\n' ((m :: ms) : List JStr) = [] :: m :: ms := by
        simp [stepNl]
      have h2 : dropLastL (m :: ms) ++ ((lastOr (m :: ms)) ++ y) :: ys ≠ [] := by
        simp
      obtain ⟨z, zs, hz⟩ := List.exists_cons_of_ne_nil h2
      rw [hz]
      have h3 : stepNl '\n' ((z :: zs) : List JStr) = [] :: z :: zs := by
        simp [stepNl]
      rw [h3, hl, hm, h1, ← hz]
      rw [dropLastL_cons_of_ne [] (m :: ms) (by simp),
        lastOr_cons_of_ne [] (m :: ms) (by simp)]
      rfl
    · rw [hm]
      cases ms with
      | nil =>
        have h1 : dropLastL ([m] : List JStr) = [] := rfl
        have h2 : lastOr ([m] : List JStr) = m := rfl
        rw [h1, h2, List.nil_append]
        have h3 : stepNl c ((m ++ y) :: ys) = (c :: (m ++ y)) :: ys := by
          simp [stepNl, hc]
        rw [h3, hl, hm]
        have h4 : stepNl c ([m] : List JStr) = [c :: m] := by
          simp [stepNl, hc]
        rw [h4]
        rfl
      | cons m2 ms' =>
        have h1 : dropLastL (m :: m2 :: ms') = m :: dropLastL (m2 :: ms') := rfl
        have h2 : lastOr (m :: m2 :: ms') = lastOr (m2 :: ms') := rfl
        rw [h1, h2, List.cons_append]
        have h3 : stepNl c (m :: (dropLastL (m2 :: ms') ++ (lastOr (m2 :: ms') ++ y) :: ys)) =
            (c :: m) :: (dropLastL (m2 :: ms') ++ (lastOr (m2 :: ms') ++ y) :: ys) := by
          simp [stepNl, hc]
        rw [h3, hl, hm]
        have h4 : stepNl c (m :: m2 :: ms') = (c :: m) :: m2 :: ms' := by
          simp [stepNl, hc]
        rw [h4, dropLastL_cons_of_ne (c :: m) (m2 :: ms') (by simp),
          lastOr_cons_of_ne (c :: m) (m2 :: ms') (by simp)]
        rfl

/-- A newline-free string split into a continuation is glued onto its head. -/
theorem linesF_of_noNl (a : JStr) (h : noNl a) (y : JStr) (ys : List JStr) :
    linesF a (y :: ys) = (a ++ y) :: ys := by
  induction a with
  | nil => rfl
  | cons c a' ih =>
    have hc : c ≠ '\n' := fun he => h (he ▸ List.mem_cons_self c a')
    have ha' : noNl a' := fun hin => h (List.mem_cons_of_mem c hin)
    show stepNl c (linesF a' (y :: ys)) = _
    rw [ih ha']
    simp [stepNl, hc]

/-- A newline-free string splits into a single line. -/
theorem lineList_of_noNl (a : JStr) (h : noNl a) : lineList a = [a] := by
  have := linesF_of_noNl a h [] []
  simpa [lineList] using this

/-- The final fragment of any split is newline-free. -/
theorem noNl_lastOr_lineList (s : JStr) : noNl (lastOr (lineList s)) := by
  induction s with
  | nil => intro h; simp [lineList, linesF, lastOr] at h
  | cons c s' ih =>
    have hne : lineList s' ≠ [] := lineList_ne_nil s'
    obtain ⟨m, ms, hm⟩ := List.exists_cons_of_ne_nil hne
    have hl : lineList (c :: s') = stepNl c (lineList s') := rfl
    by_cases hc : c = '\n'
    · subst hc
      rw [hl, hm]
      have h1 : stepNl '\n' ((m :: ms) : List JStr) = [] :: m :: ms := by simp [stepNl]
      rw [h1, lastOr_cons_of_ne [] (m :: ms) (by simp), ← hm]
      exact ih
    · rw [hl, hm]
      have h1 : stepNl c (m :: ms) = (c :: m) :: ms := by simp [stepNl, hc]
      rw [h1]
      cases ms with
      | nil =>
        have h2 : lastOr ([c :: m] : List JStr) = c :: m := rfl
        rw [h2]
        intro hin
        rcases List.mem_cons.mp hin with h3 | h3
        · exact hc h3.symm
        · have : lastOr (lineList s') = m := by rw [hm]; rfl
          exact ih (this ▸ h3)
      | cons m2 ms' =>
        rw [lastOr_cons_of_ne (c :: m) (m2 :: ms') (by simp)]
        have : lastOr (lineList s') = lastOr (m2 :: ms') := by
          rw [hm, lastOr_cons_of_ne m (m2 :: ms') (by simp)]
        exact this ▸ ih

/-- The SSE line marker `"data: "`. -/
def dataMark : JStr := "data: ".data

/-- The SSE termination payload `"[DONE]"`. -/
def doneMark : JStr := "[DONE]".data

/-- What one complete line does in `analyzePrescriptionWithAI`'s loop:
nothing, yield a chunk, or terminate the generator. -/
inductive SseLineRes
  | skip
  | out (c : JStr)
  | stop
deriving DecidableEq

/-- Per-line behaviour of `analyzePrescriptionWithAI`.  `parse` is the
`JSON.parse` oracle: `none` means the parse throws (ignored), `some d` returns
an object whose `choices[0]?.delta?.content` is `d`.  Note the source trims
the line only for the `startsWith` test and slices the untrimmed line
(`line.slice(6).trim()`), and yields only truthy (nonempty) content. -/
def analyzeLine (parse : JStr → Option (Option JStr)) (line : JStr) : SseLineRes :=
  if startsWithL dataMark (trimL line) then
    let dataStr := trimL (line.drop 6)
    if dataStr = doneMark then .stop
    else
      match parse dataStr with
      | some (some c) => if c ≠ [] then .out c else .skip
      | some none => .skip
      | none => .skip
  else .skip

/-- Process a list of complete lines in order: collected yields plus whether
`[DONE]` terminated the loop (discarding the rest). -/
def processA (parse : JStr → Option (Option JStr)) : List JStr → (List JStr × Bool)
  | [] => ([], false)
  | l :: ls =>
    match analyzeLine parse l with
    | .stop => ([], true)
    | .out c => ((c :: (processA parse ls).1), (processA parse ls).2)
    | .skip => processA parse ls

/-- The buffered streaming loop of `analyzePrescriptionWithAI`: per network
read, append to the buffer, split on newlines, keep the final fragment as the
new buffer, process complete lines, return early on `[DONE]`, and discard the
final buffer when the stream ends. -/
def analyzeRun (parse : JStr → Option (Option JStr)) (buf : JStr) :
    List JStr → List JStr
  | [] => []
  | r :: rs =>
    let parts := lineList (buf ++ r)
    let pr := processA parse (dropLastL parts)
    if pr.2 then pr.1 else pr.1 ++ analyzeRun parse (lastOr parts) rs

/-- Model of the yields of `analyzePrescriptionWithAI` over the decoded
network reads. -/
def analyzePrescriptionWithAI (parse : JStr → Option (Option JStr))
    (reads : List JStr) : List JStr :=
  analyzeRun parse [] reads

/-- The complete lines of the whole byte stream: concatenate every read,
split on newlines, drop the trailing fragment. -/
def sseLines (reads : List JStr) : List JStr :=
  dropLastL (lineList (joinL reads))

/-- Whether a complete line is the (well-formed) `[DONE]` event. -/
def isStopLine (parse : JStr → Option (Option JStr)) (l : JStr) : Bool :=
  match analyzeLine parse l with
  | .stop => true
  | _ => false

/-- The `delta.content` payload a complete line yields, if any. -/
def contentOf (parse : JStr → Option (Option JStr)) (l : JStr) : Option JStr :=
  match analyzeLine parse l with
  | .out c => some c
  | _ => none

/-- Declarative description of the stream, in the claim's words: the
`delta.content` strings of the well-formed `data: ` events of the byte
stream in order, stopping at the `[DONE]` marker. -/
def analyzeChunksSpec (parse : JStr → Option (Option JStr))
    (reads : List JStr) : List JStr :=
  (((sseLines reads).takeWhile (fun l => !isStopLine parse l)).filterMap (contentOf parse))

theorem processA_eq_spec (parse : JStr → Option (Option JStr)) (ls : List JStr) :
    (processA parse ls).1 =
      ((ls.takeWhile (fun l => !isStopLine parse l)).filterMap (contentOf parse)) := by
  induction ls with
  | nil => rfl
  | cons l ls ih =>
    show (match analyzeLine parse l with
      | .stop => (([] : List JStr), true)
      | .out c => ((c :: (processA parse ls).1), (processA parse ls).2)
      | .skip => processA parse ls).1 = _
    rcases h : analyzeLine parse l with _ | c
    · simp [List.takeWhile_cons, isStopLine, h, List.filterMap_cons, contentOf, ih]
    · simp [List.takeWhile_cons, isStopLine, h, List.filterMap_cons, contentOf, ih]
    · simp [List.takeWhile_cons, isStopLine, h, List.filterMap_cons, contentOf, ih]

theorem processA_append (parse : JStr → Option (Option JStr)) (xs ys : List JStr) :
    processA parse (xs ++ ys) =
      (if (processA parse xs).2 then processA parse xs
       else ((processA parse xs).1 ++ (processA parse ys).1, (processA parse ys).2)) := by
  induction xs with
  | nil => simp [processA]
  | cons l ls ih =>
    show (match analyzeLine parse l with
      | .stop => (([] : List JStr), true)
      | .out c => ((c :: (processA parse (ls ++ ys)).1), (processA parse (ls ++ ys)).2)
      | .skip => processA parse (ls ++ ys)) = _
    rcases h : analyzeLine parse l with _ | c
    · simp [processA, h]
      by_cases hs : (processA parse ls).2 <;> simp [hs, ih]
    · simp [processA, h]
      by_cases hs : (processA parse ls).2 <;> simp [hs, ih]
    · simp [processA, h]

/-- Buffered processing with a newline-free carry equals direct processing of
the complete lines of the concatenated stream. -/
theorem analyzeRun_eq_processA (parse : JStr → Option (Option JStr)) :
    ∀ (rs : List JStr) (buf : JStr), noNl buf →
      analyzeRun parse buf rs =
        (processA parse (dropLastL (lineList (buf ++ joinL rs)))).1 := by
  intro rs
  induction rs with
  | nil =>
    intro buf hb
    show ([] : List JStr) = _
    rw [joinL_nil, List.append_nil, lineList_of_noNl buf hb]
    rfl
  | cons r rs ih =>
    intro buf hb
    have hfull : (buf ++ joinL (r :: rs)) = (buf ++ r) ++ joinL rs := by
      rw [joinL_cons, List.append_assoc]
    have hne : lineList (joinL rs) ≠ [] := lineList_ne_nil _
    obtain ⟨y, ys, hy⟩ := List.exists_cons_of_ne_nil hne
    have hsplit : lineList ((buf ++ r) ++ joinL rs) =
        dropLastL (lineList (buf ++ r)) ++
          ((lastOr (lineList (buf ++ r))) ++ y) :: ys := by
      show linesF ((buf ++ r) ++ joinL rs) [[]] = _
      rw [linesF_append, ← lineList, hy, linesF_cons_eq]
    have hcarry : noNl (lastOr (lineList (buf ++ r))) :=
      noNl_lastOr_lineList (buf ++ r)
    have htail : lineList ((lastOr (lineList (buf ++ r))) ++ joinL rs) =
        ((lastOr (lineList (buf ++ r))) ++ y) :: ys := by
      show linesF _ [[]] = _
      rw [linesF_append, ← lineList, hy, linesF_of_noNl _ hcarry]
    show (let parts := lineList (buf ++ r)
          let pr := processA parse (dropLastL parts)
          if pr.2 then pr.1 else pr.1 ++ analyzeRun parse (lastOr parts) rs) = _
    simp only []
    rw [hfull, hsplit, dropLastL_append_cons, processA_append]
    rw [ih (lastOr (lineList (buf ++ r))) hcarry, htail]
    by_cases hs : (processA parse (dropLastL (lineList (buf ++ r)))).2
    · simp [hs]
    · simp [hs]

/-! ### `App.tsx` report state and `handleAskAI` (lines 143–155, 170–229)

The `reports` React state is a plain JS object keyed by version strings
(`"V1"`, `"V2"`, …) with the report HTML as values.  It is modelled as an
association list in insertion order: assigning to an existing key updates it
in place, assigning a fresh key appends, `delete` removes, and `Object.keys`
lists keys in that order (the keys are not array indices, so JS preserves
insertion order). -/

/-- A JS object used as a string-keyed map (insertion-ordered, unique keys). -/
abbrev JsObj := List (String × JStr)

/-- Model of `Object.keys`. -/
def objKeys (o : JsObj) : List String := o.map (·.1)

/-- Model of property read `o[k]`. -/
def objGet (o : JsObj) (k : String) : Option JStr :=
  (o.find? (fun p => p.1 = k)).map (·.2)

/-- Model of property assignment `o[k] = v` (spread-copy update). -/
def objInsert (o : JsObj) (k : String) (v : JStr) : JsObj :=
  match o with
  | [] => [(k, v)]
  | (k0, v0) :: rest =>
    if k0 = k then (k, v) :: rest else (k0, v0) :: objInsert rest k v

/-- Model of `delete o[k]`. -/
def objDelete (o : JsObj) (k : String) : JsObj :=
  o.filter (fun p => p.1 ≠ k)

theorem objDelete_objInsert_fresh (o : JsObj) (k : String) (v : JStr)
    (h : k ∉ objKeys o) : objDelete (objInsert o k v) k = o := by
  induction o with
  | nil => simp [objInsert, objDelete]
  | cons p rest ih =>
    obtain ⟨k0, v0⟩ := p
    have hk0 : k0 ≠ k := by
      intro he
      exact h (by simp [objKeys, he])
    have hrest : k ∉ objKeys rest := by
      intro hin
      exact h (by simp [objKeys] at hin ⊢; exact Or.inr hin)
    have ih' := ih hrest
    simp only [objInsert, if_neg hk0]
    simp only [objDelete, List.filter_cons] at ih' ⊢
    simp [hk0]
    simpa using ih'

theorem objGet_objInsert_self (o : JsObj) (k : String) (v : JStr) :
    objGet (objInsert o k v) k = some v := by
  induction o with
  | nil => simp [objInsert, objGet, List.find?]
  | cons p rest ih =>
    obtain ⟨k0, v0⟩ := p
    by_cases hk0 : k0 = k
    · simp [objInsert, hk0, objGet, List.find?]
    · simp only [objInsert, if_neg hk0, objGet, List.find?]
      have : (decide (k0 = k)) = false := by simp [hk0]
      rw [this]
      exact ih

theorem objKeys_objInsert_fresh (o : JsObj) (k : String) (v : JStr)
    (h : k ∉ objKeys o) : objKeys (objInsert o k v) = objKeys o ++ [k] := by
  induction o with
  | nil => simp [objInsert, objKeys]
  | cons p rest ih =>
    obtain ⟨k0, v0⟩ := p
    have hk0 : k0 ≠ k := by
      intro he
      exact h (by simp [objKeys, he])
    have hrest : k ∉ objKeys rest := by
      intro hin
      exact h (by simp [objKeys] at hin ⊢; exact Or.inr hin)
    simp only [objInsert, if_neg hk0, objKeys, List.map_cons]
    simp only [objKeys] at ih
    rw [ih hrest]
    rfl

theorem objKeys_objInsert_existing (o : JsObj) (k : String) (v : JStr)
    (h : k ∈ objKeys o) : objKeys (objInsert o k v) = objKeys o := by
  induction o with
  | nil => simp [objKeys] at h
  | cons p rest ih =>
    obtain ⟨k0, v0⟩ := p
    by_cases hk0 : k0 = k
    · simp [objInsert, hk0, objKeys]
    · have hrest : k ∈ objKeys rest := by
        simp [objKeys] at h
        rcases h with h | h
        · exact absurd h.symm hk0
        · simpa [objKeys] using h
      simp only [objInsert, if_neg hk0, objKeys, List.map_cons]
      simp only [objKeys] at ih
      rw [ih hrest]

/-- Numeric value `parseInt(key.replace(/^V/, '')) || 0` used by
`sortVersions`: strip one leading `V`, read the leading decimal digits,
`NaN` becomes 0. -/
def verNum (s : String) : Nat :=
  let l : JStr :=
    match s.data with
    | 'V' :: rest => rest
    | l => l
  (l.takeWhile Char.isDigit).foldl (fun a c => a * 10 + (c.toNat - 48)) 0

/-- The last element of `sortVersions(keys)`: the key with the largest
version number, later entries winning ties (JS `Array.prototype.sort` is
stable and the comparator orders by `verNum` ascending). -/
def maxVerKey (keys : List String) : String :=
  match keys with
  | [] => ""
  | k :: ks => ks.foldl (fun acc k2 => if verNum acc ≤ verNum k2 then k2 else acc) k

/-- The app view modes referenced by `handleAskAI`. -/
inductive ViewMode
  | INPUT | WORKSHOP | REPORT
deriving DecidableEq, Repr

/-- The `App` component state touched by `handleAskAI`. -/
structure AppState where
  reports : JsObj
  activeReportVersion : String
  aiError : Option String
  aiLoading : Bool
  view : ViewMode
  isReportIncomplete : Bool
  showAISettingsModal : Bool
deriving DecidableEq, Repr

/-- How the `for await` loop over `analyzePrescriptionWithAI` ends: normally
with the yielded chunks, or by a raised error (name, message) after some
prefix of the chunks. -/
inductive StreamOutcome
  | success (chunks : List JStr)
  | failure (ename : String) (emsg : String) (partialChunks : List JStr)

/-- The version key created for a run: `` `V${Object.keys(reports).length + 1}` ``. -/
def versionKey (o : JsObj) : String := "V" ++ toString (o.length + 1)

/-- The fallback error message `"请求 AI 时发生未知错误"`. -/
def unknownErrMsg : String := "请求 AI 时发生未知错误"

/-- The closing tag checked by the completeness test. -/
def htmlCloseTag : JStr := "</html>".data

/-- Model of `handleAskAI` as a state transition.  `analysisPresent` and
`apiKeyPresent` are the two guards; `outcome` is how the streaming loop ends.
On success the report is the concatenation of the chunks; on a non-abort
failure the created version is deleted, `aiError` is set to
`err.message || unknownErrMsg`, and the active version is re-pointed at the
newest remaining version when any remain.  An abort keeps the partial report. -/
def handleAskAI (analysisPresent apiKeyPresent : Bool) (st : AppState)
    (outcome : StreamOutcome) : AppState :=
  match analysisPresent, apiKeyPresent with
  | false, _ => st
  | true, false => { st with showAISettingsModal := true }
  | true, true =>
    let newKey := versionKey st.reports
    let st2 : AppState :=
      { st with view := .REPORT, aiLoading := true, aiError := none,
                activeReportVersion := newKey,
                reports := objInsert st.reports newKey [] }
    match outcome with
    | .success chunks =>
      let htmlContent := List.foldl (· ++ ·) [] chunks
      { st2 with reports := objInsert st2.reports newKey htmlContent,
                 isReportIncomplete := ¬(endsWithL (trimL htmlContent) htmlCloseTag),
                 aiLoading := false }
    | .failure ename emsg partialChunks =>
      let partialHtml := List.foldl (· ++ ·) ([] : JStr) partialChunks
      let st3 : AppState :=
        { st2 with reports := objInsert st2.reports newKey partialHtml }
      if ename = "AbortError" then { st3 with aiLoading := false }
      else
        let newReports := objDelete st3.reports newKey
        let remaining := objKeys newReports
        { st3 with aiError := some (if emsg ≠ "" then emsg else unknownErrMsg),
                   reports := newReports,
                   activeReportVersion :=
                     if remaining ≠ [] then maxVerKey remaining
                     else st3.activeReportVersion,
                   aiLoading := false }

theorem objInsert_objInsert_same (o : JsObj) (k : String) (v v' : JStr) :
    objInsert (objInsert o k v) k v' = objInsert o k v' := by
  induction o with
  | nil => simp [objInsert]
  | cons p rest ih =>
    obtain ⟨k0, v0⟩ := p
    by_cases hk0 : k0 = k
    · simp [objInsert, hk0]
    · simp [objInsert, hk0, ih]

theorem foldl_append_eq_joinL : ∀ (l : List JStr) (acc : JStr),
    List.foldl (· ++ ·) acc l = acc ++ joinL l := by
  intro l
  induction l with
  | nil => intro acc; simp [joinL]
  | cons x xs ih =>
    intro acc
    show List.foldl (· ++ ·) (acc ++ x) xs = _
    rw [ih (acc ++ x), joinL_cons, List.append_assoc]

/-- Claim C6 (amended): when the streaming run fails with a non-abort error
whose message is nonempty, and the version key generated for the run is not
already a stored version (always the case for the app's contiguous `V1..Vn`
maps), the error message is stored in `aiError`, the created version is
deleted so the reports map equals the one before the request, and — when any
versions remain — the active version becomes the newest remaining one. -/
theorem c6_failure_restores_reports (st : AppState) (ename emsg : String)
    (partialChunks : List JStr)
    (hab : ename ≠ "AbortError")
    (hfresh : versionKey st.reports ∉ objKeys st.reports)
    (hmsg : emsg ≠ "") :
    (handleAskAI true true st (.failure ename emsg partialChunks)).reports =
      st.reports ∧
    (handleAskAI true true st (.failure ename emsg partialChunks)).aiError =
      some emsg ∧
    (objKeys st.reports ≠ [] →
      (handleAskAI true true st
          (.failure ename emsg partialChunks)).activeReportVersion =
        maxVerKey (objKeys st.reports)) := by
  have hsame := objInsert_objInsert_same st.reports (versionKey st.reports) []
    (List.foldl (· ++ ·) ([] : JStr) partialChunks)
  have hdel := objDelete_objInsert_fresh st.reports (versionKey st.reports)
    (List.foldl (· ++ ·) ([] : JStr) partialChunks) hfresh
  simp only [handleAskAI]
  rw [if_neg hab, if_pos hmsg]
  simp only [hsame, hdel]
  refine ⟨trivial, trivial, ?_⟩
  intro hne
  simp [hne]

/-- Witness state for C6: a single stored version `V1`, so the generated key
`V2` is fresh. -/
def c6WitnessState : AppState :=
  { reports := [("V1", "<html></html>".data)]
    activeReportVersion := "V1"
    aiError := none
    aiLoading := false
    view := .WORKSHOP
    isReportIncomplete := false
    showAISettingsModal := false }

/-- Witness for C6 at a concrete state and failure. -/
theorem c6_failure_restores_reports_witness :
    (("TypeError" : String) ≠ "AbortError" ∧
      versionKey c6WitnessState.reports ∉ objKeys c6WitnessState.reports ∧
      ("boom" : String) ≠ "") ∧
    ((handleAskAI true true c6WitnessState
        (.failure "TypeError" "boom" [])).reports = c6WitnessState.reports ∧
      (handleAskAI true true c6WitnessState
          (.failure "TypeError" "boom" [])).aiError = some "boom" ∧
      (objKeys c6WitnessState.reports ≠ [] →
        (handleAskAI true true c6WitnessState
            (.failure "TypeError" "boom" [])).activeReportVersion =
          maxVerKey (objKeys c6WitnessState.reports))) :=
  ⟨⟨by decide, by decide, by decide⟩,
    c6_failure_restores_reports c6WitnessState "TypeError" "boom" []
      (by decide) (by decide) (by decide)⟩

/-- A state whose only stored version is `V2`: the key generated for the next
run collides with it. -/
def c6CollisionState : AppState :=
  { reports := [("V2", "old report".data)]
    activeReportVersion := "V2"
    aiError := none
    aiLoading := false
    view := .WORKSHOP
    isReportIncomplete := false
    showAISettingsModal := false }

/-- Counterexample for C6 as stated: from a state whose only version is `V2`
(one entry, so the new key is again `V2`), a failed run deletes the
pre-existing `V2` report — the stored reports map is not the same as before
the request. -/
theorem c6_counterexample_key_collision :
    (handleAskAI true true c6CollisionState
        (.failure "TypeError" "network error" [])).reports ≠
      c6CollisionState.reports := by
  decide

/-- Claim C3: `analyzePrescriptionWithAI` yields exactly the `delta.content`
strings of the well-formed `data: ` events of the byte stream in the order
they appear, stopping at the `[DONE]` marker; the report accumulated by
`handleAskAI` (`htmlContent += chunk`, stored under the new version key) is
the in-order concatenation of those chunks, i.e. the streamed report text is
reconstructed verbatim. -/
theorem c3_streamed_report_is_ordered_concatenation
    (parse : JStr → Option (Option JStr)) (reads : List JStr) (st : AppState) :
    analyzePrescriptionWithAI parse reads = analyzeChunksSpec parse reads ∧
    List.foldl (· ++ ·) ([] : JStr) (analyzePrescriptionWithAI parse reads) =
      joinL (analyzeChunksSpec parse reads) ∧
    objGet ((handleAskAI true true st
        (.success (analyzePrescriptionWithAI parse reads))).reports)
        (versionKey st.reports) =
      some (joinL (analyzeChunksSpec parse reads)) := by
  have h1 : analyzePrescriptionWithAI parse reads = analyzeChunksSpec parse reads := by
    unfold analyzePrescriptionWithAI analyzeChunksSpec
    rw [analyzeRun_eq_processA parse reads [] (by intro h; cases h)]
    rw [List.nil_append, processA_eq_spec]
    rfl
  have h2 : List.foldl (· ++ ·) ([] : JStr) (analyzePrescriptionWithAI parse reads) =
      joinL (analyzeChunksSpec parse reads) := by
    rw [h1, foldl_append_eq_joinL, List.nil_append]
  refine ⟨h1, h2, ?_⟩
  have hrep : (handleAskAI true true st
      (.success (analyzePrescriptionWithAI parse reads))).reports =
      objInsert (objInsert st.reports (versionKey st.reports) [])
        (versionKey st.reports)
        (List.foldl (· ++ ·) ([] : JStr) (analyzePrescriptionWithAI parse reads)) := by
    simp only [handleAskAI]
  rw [hrep, objInsert_objInsert_same, objGet_objInsert_self, h2]

/-! ### `generateChatStream` streaming loop and tool-call accumulation
(`src/services/openaiService.ts` lines 1239–1296, and the identical loop at
632–690)

Per complete line: `const trimmed = line.trim()`; skip unless
`trimmed.startsWith("data: ")`; `dataStr = trimmed.slice(6)`; `"[DONE]"` is
skipped (`continue`, not `return`); otherwise `JSON.parse(dataStr)` is
attempted — `delta.content` is yielded as a text item when truthy, and
`delta.tool_calls` deltas are folded into `currentToolCalls`, an object keyed
by the numeric `index` (so `Object.values` enumerates in ascending index
order, modelled as an association list kept sorted by index).  After the
stream ends the accumulated calls whose argument strings parse are yielded as
one `functionCalls` item, if any. -/

/-- One entry of a streamed `delta.tool_calls` array. -/
structure ToolCallDelta where
  index : Nat
  id : Option JStr
  fname : Option JStr
  fargs : Option JStr

/-- The `choices[0].delta` object of one parsed chat event. -/
structure ChatDelta where
  content : Option JStr
  toolCalls : Option (List ToolCallDelta)

/-- One accumulating entry of `currentToolCalls` (`{id: '', name: '', args: ''}`). -/
structure ToolCallAcc where
  id : JStr
  name : JStr
  args : JStr
deriving DecidableEq

/-- A finalized tool call with parsed arguments of type `α`. -/
structure ParsedToolCall (α : Type) where
  id : JStr
  name : JStr
  args : α

/-- An item yielded by `generateChatStream`: a text chunk or the final
`functionCalls` batch. -/
inductive ChatItem (α : Type)
  | text (c : JStr)
  | calls (fcs : List (ParsedToolCall α))

/-- The fresh accumulator `{ id: '', name: '', args: '' }`. -/
def emptyAcc : ToolCallAcc := ⟨[], [], []⟩

/-- Fold one tool delta into an accumulator entry: truthy `id`/`name`
overwrite, truthy `arguments` append. -/
def updAcc (acc : ToolCallAcc) (td : ToolCallDelta) : ToolCallAcc :=
  { id := match td.id with
      | some s => if s ≠ [] then s else acc.id
      | none => acc.id
    name := match td.fname with
      | some s => if s ≠ [] then s else acc.name
      | none => acc.name
    args := match td.fargs with
      | some s => if s ≠ [] then acc.args ++ s else acc.args
      | none => acc.args }

/-- `currentToolCalls` as an index-sorted association list; indexing a JS
object by integer-like keys enumerates `Object.values` in ascending key
order, so insertion keeps the list sorted. -/
def applyToolDelta : List (Nat × ToolCallAcc) → ToolCallDelta → List (Nat × ToolCallAcc)
  | [], td => [(td.index, updAcc emptyAcc td)]
  | (j, a) :: rest, td =>
    if td.index < j then (td.index, updAcc emptyAcc td) :: (j, a) :: rest
    else if td.index = j then (j, updAcc a td) :: rest
    else (j, a) :: applyToolDelta rest td

/-- The `dataStr` carried by a complete line, if the line is a non-`[DONE]`
`data: ` event (`trimmed.slice(6)` on the trimmed line; `[DONE]` is skipped). -/
def chatDataStr (line : JStr) : Option JStr :=
  let trimmed := trimL line
  if startsWithL dataMark trimmed then
    let dataStr := trimmed.drop 6
    if dataStr = doneMark then none else some dataStr
  else none

/-- The text chunk a complete line yields (`if (delta.content) yield`,
content truthy). -/
def chatTextOf (pc : JStr → Option ChatDelta) (line : JStr) : Option JStr :=
  match chatDataStr line with
  | none => none
  | some ds =>
    match pc ds with
    | none => none
    | some delta =>
      match delta.content with
      | some c => if c ≠ [] then some c else none
      | none => none

/-- Fold a complete line's tool-call deltas into `currentToolCalls`
(`if (delta.tool_calls) delta.tool_calls.forEach(...)`). -/
def chatToolUpd (pc : JStr → Option ChatDelta) (m : List (Nat × ToolCallAcc))
    (line : JStr) : List (Nat × ToolCallAcc) :=
  match chatDataStr line with
  | none => m
  | some ds =>
    match pc ds with
    | none => m
    | some delta =>
      match delta.toolCalls with
      | some tds => tds.foldl applyToolDelta m
      | none => m

/-- The items a single complete line yields inside the loop (text only; the
`functionCalls` item is only produced after the loop). -/
def chatLineItems {α : Type} (pc : JStr → Option ChatDelta) (line : JStr) :
    List (ChatItem α) :=
  match chatTextOf pc line with
  | some c => [.text c]
  | none => []

/-- Process a list of complete lines in order, threading `currentToolCalls`. -/
def chatLinesRun {α : Type} (pc : JStr → Option ChatDelta)
    (m : List (Nat × ToolCallAcc)) : List JStr → (List (ChatItem α) × List (Nat × ToolCallAcc))
  | [] => ([], m)
  | l :: ls =>
    let r := chatLinesRun pc (chatToolUpd pc m l) ls
    (chatLineItems pc l ++ r.1, r.2)

/-- The buffered streaming loop of `generateChatStream`. -/
def chatRun {α : Type} (pc : JStr → Option ChatDelta) :
    JStr → List (Nat × ToolCallAcc) → List JStr →
      (List (ChatItem α) × List (Nat × ToolCallAcc))
  | _, m, [] => ([], m)
  | buf, m, r :: rs =>
    let parts := lineList (buf ++ r)
    let s1 := chatLinesRun pc m (dropLastL parts)
    let s2 := chatRun pc (lastOr parts) s1.2 rs
    (s1.1 ++ s2.1, s2.2)

/-- The accumulated calls whose concatenated argument deltas parse as valid
JSON (`pa` is the `JSON.parse` oracle for argument strings). -/
def chatParsedCalls {α : Type} (pa : JStr → Option α)
    (m : List (Nat × ToolCallAcc)) : List (ParsedToolCall α) :=
  (m.map (·.2)).filterMap
    (fun tc => (pa tc.args).map (fun a => ParsedToolCall.mk tc.id tc.name a))

/-- The after-loop finalization: if any calls accumulated and any of them
parse, yield one `functionCalls` item. -/
def chatFinalize {α : Type} (pa : JStr → Option α)
    (m : List (Nat × ToolCallAcc)) : List (ChatItem α) :=
  let arr := m.map (·.2)
  if arr.length > 0 then
    let parsed := arr.filterMap
      (fun tc => (pa tc.args).map (fun a => ParsedToolCall.mk tc.id tc.name a))
    if parsed.length > 0 then [.calls parsed] else []
  else []

/-- Model of the yields of `generateChatStream` over the decoded network
reads. -/
def generateChatStream {α : Type} (pc : JStr → Option ChatDelta)
    (pa : JStr → Option α) (reads : List JStr) : List (ChatItem α) :=
  (chatRun (α := α) pc [] [] reads).1 ++
    chatFinalize pa (chatRun (α := α) pc [] [] reads).2

/-- Declarative final accumulator: fold the tool deltas of all complete lines
of the whole stream, in order. -/
def chatAccSpec (pc : JStr → Option ChatDelta) (reads : List JStr) :
    List (Nat × ToolCallAcc) :=
  (sseLines reads).foldl (chatToolUpd pc) []

/-- The trailing `functionCalls` item: present exactly when some accumulated
call parsed. -/
def chatCallsTail {α : Type} : List (ParsedToolCall α) → List (ChatItem α)
  | [] => []
  | p :: ps => [.calls (p :: ps)]

/-- Declarative stream contents: all text chunks in order, then the single
`functionCalls` item when any accumulated call parses. -/
def chatItemsSpec {α : Type} (pc : JStr → Option ChatDelta) (pa : JStr → Option α)
    (reads : List JStr) : List (ChatItem α) :=
  (((sseLines reads).filterMap (chatTextOf pc)).map ChatItem.text) ++
    chatCallsTail (chatParsedCalls pa (chatAccSpec pc reads))

/-- Whether an item is the `functionCalls` item. -/
def isCallsItem {α : Type} : ChatItem α → Bool
  | .calls _ => true
  | .text _ => false

/-- Whether an item is a text chunk. -/
def isTextItem {α : Type} : ChatItem α → Bool
  | .text _ => true
  | .calls _ => false


theorem chatLinesRun_append {α : Type} (pc : JStr → Option ChatDelta)
    (xs ys : List JStr) : ∀ m,
    chatLinesRun (α := α) pc m (xs ++ ys) =
      ((chatLinesRun (α := α) pc m xs).1 ++
          (chatLinesRun (α := α) pc (chatLinesRun (α := α) pc m xs).2 ys).1,
        (chatLinesRun (α := α) pc (chatLinesRun (α := α) pc m xs).2 ys).2) := by
  induction xs with
  | nil =>
    intro m
    show chatLinesRun (α := α) pc m ys =
      (([] : List (ChatItem α)) ++ (chatLinesRun (α := α) pc m ys).1,
        (chatLinesRun (α := α) pc m ys).2)
    rw [List.nil_append]
  | cons l ls ih =>
    intro m
    show (chatLineItems pc l ++ (chatLinesRun (α := α) pc (chatToolUpd pc m l) (ls ++ ys)).1,
        (chatLinesRun (α := α) pc (chatToolUpd pc m l) (ls ++ ys)).2) = _
    rw [ih (chatToolUpd pc m l)]
    show _ = ((chatLineItems pc l ++ (chatLinesRun (α := α) pc (chatToolUpd pc m l) ls).1) ++
        (chatLinesRun (α := α) pc
          (chatLinesRun (α := α) pc (chatToolUpd pc m l) ls).2 ys).1,
      (chatLinesRun (α := α) pc
        (chatLinesRun (α := α) pc (chatToolUpd pc m l) ls).2 ys).2)
    rw [List.append_assoc]

theorem chatLinesRun_fst {α : Type} (pc : JStr → Option ChatDelta)
    (ls : List JStr) : ∀ m,
    (chatLinesRun (α := α) pc m ls).1 =
      (ls.filterMap (chatTextOf pc)).map ChatItem.text := by
  induction ls with
  | nil => intro m; rfl
  | cons l ls ih =>
    intro m
    show chatLineItems pc l ++ (chatLinesRun (α := α) pc (chatToolUpd pc m l) ls).1 = _
    rw [ih]
    rcases h : chatTextOf pc l with _ | c
    · simp [chatLineItems, h, List.filterMap_cons]
    · simp [chatLineItems, h, List.filterMap_cons]

theorem chatLinesRun_snd {α : Type} (pc : JStr → Option ChatDelta)
    (ls : List JStr) : ∀ m,
    (chatLinesRun (α := α) pc m ls).2 = ls.foldl (chatToolUpd pc) m := by
  induction ls with
  | nil => intro m; rfl
  | cons l ls ih =>
    intro m
    show (chatLinesRun (α := α) pc (chatToolUpd pc m l) ls).2 = _
    rw [ih]
    rfl

/-- Buffered chat processing with a newline-free carry equals direct
processing of the complete lines of the concatenated stream. -/
theorem chatRun_eq_chatLinesRun {α : Type} (pc : JStr → Option ChatDelta) :
    ∀ (rs : List JStr) (buf : JStr) (m : List (Nat × ToolCallAcc)), noNl buf →
      chatRun (α := α) pc buf m rs =
        chatLinesRun (α := α) pc m (dropLastL (lineList (buf ++ joinL rs))) := by
  intro rs
  induction rs with
  | nil =>
    intro buf m hb
    show (([] : List (ChatItem α)), m) = _
    rw [joinL_nil, List.append_nil, lineList_of_noNl buf hb]
    rfl
  | cons r rs ih =>
    intro buf m hb
    have hfull : (buf ++ joinL (r :: rs)) = (buf ++ r) ++ joinL rs := by
      rw [joinL_cons, List.append_assoc]
    have hne : lineList (joinL rs) ≠ [] := lineList_ne_nil _
    obtain ⟨y, ys, hy⟩ := List.exists_cons_of_ne_nil hne
    have hsplit : lineList ((buf ++ r) ++ joinL rs) =
        dropLastL (lineList (buf ++ r)) ++
          ((lastOr (lineList (buf ++ r))) ++ y) :: ys := by
      show linesF ((buf ++ r) ++ joinL rs) [[]] = _
      rw [linesF_append, ← lineList, hy, linesF_cons_eq]
    have hcarry : noNl (lastOr (lineList (buf ++ r))) :=
      noNl_lastOr_lineList (buf ++ r)
    have htail : lineList ((lastOr (lineList (buf ++ r))) ++ joinL rs) =
        ((lastOr (lineList (buf ++ r))) ++ y) :: ys := by
      show linesF _ [[]] = _
      rw [linesF_append, ← lineList, hy, linesF_of_noNl _ hcarry]
    show ((chatLinesRun (α := α) pc m (dropLastL (lineList (buf ++ r)))).1 ++
        (chatRun (α := α) pc (lastOr (lineList (buf ++ r)))
          (chatLinesRun (α := α) pc m (dropLastL (lineList (buf ++ r)))).2 rs).1,
      (chatRun (α := α) pc (lastOr (lineList (buf ++ r)))
        (chatLinesRun (α := α) pc m (dropLastL (lineList (buf ++ r)))).2 rs).2) = _
    rw [hfull, hsplit, dropLastL_append_cons, chatLinesRun_append]
    rw [ih (lastOr (lineList (buf ++ r))) _ hcarry, htail]

theorem chatFinalize_eq {α : Type} (pa : JStr → Option α)
    (m : List (Nat × ToolCallAcc)) :
    chatFinalize pa m = chatCallsTail (chatParsedCalls pa m) := by
  unfold chatFinalize chatParsedCalls
  cases m with
  | nil => rfl
  | cons p ps =>
    simp only [List.map_cons, List.length_cons, Nat.succ_pos, if_pos]
    rcases hp : ((p.2 :: ps.map (·.2)).filterMap
        (fun tc => (pa tc.args).map (fun a => ParsedToolCall.mk tc.id tc.name a))) with _ | ⟨q, qs⟩
    · rw [hp]
      simp [chatCallsTail]
    · rw [hp]
      simp [chatCallsTail]

theorem filter_calls_map_text {α : Type} (ts : List JStr) :
    ((ts.map (ChatItem.text : JStr → ChatItem α)).filter (fun i => isCallsItem i)) = [] := by
  induction ts with
  | nil => rfl
  | cons t ts ih => simp [isCallsItem, ih]

theorem filter_text_map_text {α : Type} (ts : List JStr) :
    ((ts.map (ChatItem.text : JStr → ChatItem α)).filter (fun i => isTextItem i)) =
      ts.map ChatItem.text := by
  induction ts with
  | nil => rfl
  | cons t ts ih => simp [isTextItem, ih]

/-- Claim C10: `generateChatStream` yields all text chunks first, then at most
one `functionCalls` item, only after the network stream has ended; that item
contains exactly the tool calls accumulated by index whose concatenated
argument deltas parse as valid JSON, and when none parse no `functionCalls`
item is yielded at all. -/
theorem c10_functionCalls_once_after_texts {α : Type}
    (pc : JStr → Option ChatDelta) (pa : JStr → Option α) (reads : List JStr) :
    generateChatStream pc pa reads = chatItemsSpec pc pa reads ∧
    ((generateChatStream pc pa reads).filter (fun i => isCallsItem i)).length ≤ 1 ∧
    (chatParsedCalls pa (chatAccSpec pc reads) = [] →
      (generateChatStream pc pa reads).filter (fun i => isCallsItem i) = []) ∧
    generateChatStream pc pa reads =
      (generateChatStream pc pa reads).filter (fun i => isTextItem i) ++
        (generateChatStream pc pa reads).filter (fun i => isCallsItem i) := by
  have hrun := chatRun_eq_chatLinesRun (α := α) pc reads [] [] (by intro h; cases h)
  have heq : generateChatStream pc pa reads = chatItemsSpec pc pa reads := by
    unfold generateChatStream chatItemsSpec
    rw [hrun, List.nil_append, chatLinesRun_fst, chatLinesRun_snd, chatFinalize_eq]
    rfl
  refine ⟨heq, ?_, ?_, ?_⟩
  · rw [heq]
    unfold chatItemsSpec
    rw [List.filter_append, filter_calls_map_text, List.nil_append]
    rcases chatParsedCalls pa (chatAccSpec pc reads) with _ | ⟨q, qs⟩
    · simp [chatCallsTail]
    · simp [chatCallsTail, isCallsItem]
  · intro h
    rw [heq]
    unfold chatItemsSpec
    rw [h]
    rw [List.filter_append, filter_calls_map_text, List.nil_append]
    rfl
  · rw [heq]
    unfold chatItemsSpec
    rw [List.filter_append, List.filter_append, filter_calls_map_text,
      filter_text_map_text, List.nil_append]
    rcases chatParsedCalls pa (chatAccSpec pc reads) with _ | ⟨q, qs⟩
    · simp [chatCallsTail]
    · simp [chatCallsTail, isCallsItem, isTextItem]

/-! ### `bulkUpsertHerbs` (`src/unnamed/part_000` lines 144–196)

The herbs are upserted in batches of 100.  A batch either succeeds (its length
is added to `successCount`), fails with a Supabase error (its length is added
to `failedCount`; a table-not-found error additionally sets `errorMessage` and
breaks the loop), or throws (caught: `errorMessage = e.message`, which may be
`undefined` or empty, and `failedCount = herbs.length - successCount`).
Afterwards a truthy `errorMessage` overrides the counts to `0`/`herbs.length`.
The Supabase client's behaviour per batch is the oracle `run`. -/

/-- What `client.from('herbs').upsert(batch)` does for one batch: succeed,
return an error (critical meaning table-not-found, i.e. code `PGRST205` or a
"Could not find the table" message), or throw with `e.message`. -/
inductive BatchResult
  | ok
  | err (critical : Bool)
  | exn (msg : Option String)

/-- Batching in chunks of 100 (`payload.slice(i, i + BATCH_SIZE)`), with
explicit fuel for structural recursion. -/
def chunksOfAux {α : Type} : Nat → List α → List (List α)
  | 0, _ => []
  | _, [] => []
  | fuel + 1, c :: cs => ((c :: cs).take 100) :: chunksOfAux fuel ((c :: cs).drop 100)

/-- The batches of 100 taken from a list. -/
def chunksOf100 {α : Type} (l : List α) : List (List α) := chunksOfAux l.length l

/-- How the batch loop ends: normally (with the accumulated counts and the
critical error message, if the loop broke on one), or by a caught exception. -/
inductive LoopRes
  | done (succ fail : Nat) (err : Option String)
  | threw (succ : Nat) (msg : Option String)

/-- The critical error message set on a table-not-found batch error. -/
def tableMissingMsg : String := "Could not find the table 'public.herbs'."

/-- The batch loop of `bulkUpsertHerbs`. -/
def bulkLoop {α : Type} (run : Nat → BatchResult) :
    List (List α) → Nat → Nat → Nat → LoopRes
  | [], _, succ, fail => .done succ fail none
  | b :: rest, k, succ, fail =>
    match run k with
    | .ok => bulkLoop run rest (k + 1) (succ + b.length) fail
    | .err critical =>
      if critical then .done succ (fail + b.length) (some tableMissingMsg)
      else bulkLoop run rest (k + 1) succ (fail + b.length)
    | .exn msg => .threw succ msg

/-- The result record `{ success, failed, error? }`. -/
structure UpsertResult where
  success : Nat
  failed : Nat
  error : Option String
deriving DecidableEq, Repr

/-- JS truthiness of `errorMessage : string | undefined`. -/
def optTruthy : Option String → Bool
  | none => false
  | some s => s ≠ ""

/-- Model of `bulkUpsertHerbs`. -/
def bulkUpsertHerbs {α : Type} (clientPresent : Bool) (herbs : List α)
    (run : Nat → BatchResult) : UpsertResult :=
  match clientPresent with
  | false => ⟨0, herbs.length, none⟩
  | true =>
    match bulkLoop run (chunksOf100 herbs) 0 0 0 with
    | .done s f e => if optTruthy e then ⟨0, herbs.length, e⟩ else ⟨s, f, e⟩
    | .threw s msg =>
      if optTruthy msg then ⟨0, herbs.length, msg⟩
      else ⟨s, herbs.length - s, msg⟩

theorem chunksOfAux_sumLens {α : Type} :
    ∀ (fuel : Nat) (l : List α), l.length ≤ fuel →
      ((chunksOfAux fuel l).map List.length).sum = l.length := by
  intro fuel
  induction fuel with
  | zero =>
    intro l hl
    have : l = [] := List.eq_nil_of_length_eq_zero (Nat.le_zero.mp hl)
    subst this
    rfl
  | succ fuel ih =>
    intro l hl
    cases l with
    | nil => rfl
    | cons c cs =>
      show (((c :: cs).take 100).length + ((chunksOfAux fuel ((c :: cs).drop 100)).map List.length).sum) = _
      rw [ih ((c :: cs).drop 100) (by
        have hl' := hl
        simp at hl' ⊢
        omega)]
      simp
      omega

theorem chunksOf100_sumLens {α : Type} (l : List α) :
    ((chunksOf100 l).map List.length).sum = l.length :=
  chunksOfAux_sumLens l.length l (Nat.le_refl _)

theorem bulkLoop_done_spec {α : Type} (run : Nat → BatchResult) :
    ∀ (batches : List (List α)) (k s0 f0 s f : Nat) (e : Option String),
      bulkLoop run batches k s0 f0 = .done s f e →
      (e = none → s + f = s0 + f0 + ((batches.map List.length).sum)) ∧
      (∀ msg, e = some msg → msg = tableMissingMsg) := by
  intro batches
  induction batches with
  | nil =>
    intro k s0 f0 s f e h
    injection h with h1 h2 h3
    subst h1; subst h2; subst h3
    exact ⟨fun _ => by simp, fun msg hmsg => by cases hmsg⟩
  | cons b rest ih =>
    intro k s0 f0 s f e h
    show _ ∧ _
    rcases hr : run k with _ | critical | msg
    · have h' : bulkLoop run rest (k + 1) (s0 + b.length) f0 = .done s f e := by
        have : bulkLoop run (b :: rest) k s0 f0 =
            bulkLoop run rest (k + 1) (s0 + b.length) f0 := by
          show (match run k with
            | .ok => bulkLoop run rest (k + 1) (s0 + b.length) f0
            | .err critical =>
              if critical then .done s0 (f0 + b.length) (some tableMissingMsg)
              else bulkLoop run rest (k + 1) s0 (f0 + b.length)
            | .exn msg => .threw s0 msg) = _
          rw [hr]
        rw [← this]; exact h
      have := ih (k + 1) (s0 + b.length) f0 s f e h'
      refine ⟨fun he => ?_, this.2⟩
      have := this.1 he
      simp at this ⊢
      omega
    · by_cases hc : critical = true
      · subst hc
        have h' : LoopRes.done s0 (f0 + b.length) (some tableMissingMsg) = .done s f e := by
          have : bulkLoop run (b :: rest) k s0 f0 =
              LoopRes.done s0 (f0 + b.length) (some tableMissingMsg) := by
            show (match run k with
              | .ok => bulkLoop run rest (k + 1) (s0 + b.length) f0
              | .err critical =>
                if critical then .done s0 (f0 + b.length) (some tableMissingMsg)
                else bulkLoop run rest (k + 1) s0 (f0 + b.length)
              | .exn msg => .threw s0 msg) = _
            rw [hr]
            rfl
          rw [← this]; exact h
        injection h' with h1 h2 h3
        subst h1; subst h2
        refine ⟨fun he => ?_, fun msg hmsg => ?_⟩
        · rw [← h3] at he; cases he
        · rw [← h3] at hmsg
          injection hmsg with h4
          exact h4.symm
      · have hc' : critical = false := by
          cases critical
          · rfl
          · exact absurd rfl hc
        subst hc'
        have h' : bulkLoop run rest (k + 1) s0 (f0 + b.length) = .done s f e := by
          have : bulkLoop run (b :: rest) k s0 f0 =
              bulkLoop run rest (k + 1) s0 (f0 + b.length) := by
            show (match run k with
              | .ok => bulkLoop run rest (k + 1) (s0 + b.length) f0
              | .err critical =>
                if critical then .done s0 (f0 + b.length) (some tableMissingMsg)
                else bulkLoop run rest (k + 1) s0 (f0 + b.length)
              | .exn msg => .threw s0 msg) = _
            rw [hr]
            rfl
          rw [← this]; exact h
        have := ih (k + 1) s0 (f0 + b.length) s f e h'
        refine ⟨fun he => ?_, this.2⟩
        have := this.1 he
        simp at this ⊢
        omega
    · have h' : LoopRes.threw s0 msg = .done s f e := by
        have : bulkLoop run (b :: rest) k s0 f0 = LoopRes.threw s0 msg := by
          show (match run k with
            | .ok => bulkLoop run rest (k + 1) (s0 + b.length) f0
            | .err critical =>
              if critical then .done s0 (f0 + b.length) (some tableMissingMsg)
              else bulkLoop run rest (k + 1) s0 (f0 + b.length)
            | .exn msg => .threw s0 msg) = _
          rw [hr]
        rw [← this]; exact h
      cases h'

theorem bulkLoop_threw_spec {α : Type} (run : Nat → BatchResult) :
    ∀ (batches : List (List α)) (k s0 f0 s : Nat) (msg : Option String),
      bulkLoop run batches k s0 f0 = .threw s msg →
      s0 ≤ s ∧ s ≤ s0 + ((batches.map List.length).sum) := by
  intro batches
  induction batches with
  | nil =>
    intro k s0 f0 s msg h
    cases h
  | cons b rest ih =>
    intro k s0 f0 s msg h
    rcases hr : run k with _ | critical | m
    · have h' : bulkLoop run rest (k + 1) (s0 + b.length) f0 = .threw s msg := by
        have : bulkLoop run (b :: rest) k s0 f0 =
            bulkLoop run rest (k + 1) (s0 + b.length) f0 := by
          show (match run k with
            | .ok => bulkLoop run rest (k + 1) (s0 + b.length) f0
            | .err critical =>
              if critical then .done s0 (f0 + b.length) (some tableMissingMsg)
              else bulkLoop run rest (k + 1) s0 (f0 + b.length)
            | .exn msg => .threw s0 msg) = _
          rw [hr]
        rw [← this]; exact h
      have := ih (k + 1) (s0 + b.length) f0 s msg h'
      constructor
      · omega
      · have h2 := this.2
        simp at h2 ⊢
        omega
    · by_cases hc : critical = true
      · subst hc
        have h' : LoopRes.done s0 (f0 + b.length) (some tableMissingMsg) = .threw s msg := by
          have : bulkLoop run (b :: rest) k s0 f0 =
              LoopRes.done s0 (f0 + b.length) (some tableMissingMsg) := by
            show (match run k with
              | .ok => bulkLoop run rest (k + 1) (s0 + b.length) f0
              | .err critical =>
                if critical then .done s0 (f0 + b.length) (some tableMissingMsg)
                else bulkLoop run rest (k + 1) s0 (f0 + b.length)
              | .exn msg => .threw s0 msg) = _
            rw [hr]
            rfl
          rw [← this]; exact h
        cases h'
      · have hc' : critical = false := by
          cases critical
          · rfl
          · exact absurd rfl hc
        subst hc'
        have h' : bulkLoop run rest (k + 1) s0 (f0 + b.length) = .threw s msg := by
          have : bulkLoop run (b :: rest) k s0 f0 =
              bulkLoop run rest (k + 1) s0 (f0 + b.length) := by
            show (match run k with
              | .ok => bulkLoop run rest (k + 1) (s0 + b.length) f0
              | .err critical =>
                if critical then .done s0 (f0 + b.length) (some tableMissingMsg)
                else bulkLoop run rest (k + 1) s0 (f0 + b.length)
              | .exn msg => .threw s0 msg) = _
            rw [hr]
            rfl
          rw [← this]; exact h
        have := ih (k + 1) s0 (f0 + b.length) s msg h'
        constructor
        · exact this.1
        · have h2 := this.2
          simp at h2 ⊢
          omega
    · have h' : LoopRes.threw s0 m = .threw s msg := by
        have : bulkLoop run (b :: rest) k s0 f0 = LoopRes.threw s0 m := by
          show (match run k with
            | .ok => bulkLoop run rest (k + 1) (s0 + b.length) f0
            | .err critical =>
              if critical then .done s0 (f0 + b.length) (some tableMissingMsg)
              else bulkLoop run rest (k + 1) s0 (f0 + b.length)
            | .exn msg => .threw s0 msg) = _
          rw [hr]
        rw [← this]; exact h
      injection h' with h1 h2
      subst h1
      exact ⟨Nat.le_refl _, Nat.le_add_right _ _⟩

/-- Claim C8 (amended): the success and failed counts always sum to the input
length, and whenever the returned error message is truthy (present and
nonempty) the result reports success 0 and failed equal to the input length.
(As stated the claim also covered a present-but-empty error message, which
escapes the truthiness override — see the counterexample.) -/
theorem c8_bulkUpsertHerbs_counts {α : Type} (clientPresent : Bool)
    (herbs : List α) (run : Nat → BatchResult) :
    (bulkUpsertHerbs clientPresent herbs run).success +
      (bulkUpsertHerbs clientPresent herbs run).failed = herbs.length ∧
    (∀ msg, (bulkUpsertHerbs clientPresent herbs run).error = some msg →
      msg ≠ "" →
      (bulkUpsertHerbs clientPresent herbs run).success = 0 ∧
      (bulkUpsertHerbs clientPresent herbs run).failed = herbs.length) := by
  cases clientPresent with
  | false => exact ⟨by simp [bulkUpsertHerbs], fun msg h => by cases h⟩
  | true =>
    rcases hb : bulkLoop run (chunksOf100 herbs) 0 0 0 with ⟨s, f, e⟩ | ⟨s, msg⟩
    · have hd := bulkLoop_done_spec run (chunksOf100 herbs) 0 0 0 s f e hb
      by_cases ht : optTruthy e = true
      · have hres : bulkUpsertHerbs true herbs run =
            ⟨0, herbs.length, e⟩ := by
          simp [bulkUpsertHerbs, hb, ht]
        rw [hres]
        exact ⟨by simp, fun msg _ _ => ⟨rfl, rfl⟩⟩
      · have hres : bulkUpsertHerbs true herbs run = ⟨s, f, e⟩ := by
          simp [bulkUpsertHerbs, hb, ht]
        rw [hres]
        have hnone : e = none := by
          cases e with
          | none => rfl
          | some msg =>
            have := hd.2 msg rfl
            subst this
            exact absurd (by simp [optTruthy, tableMissingMsg]) ht
        constructor
        · have := hd.1 hnone
          rw [chunksOf100_sumLens] at this
          simpa using this
        · intro msg hmsg
          rw [hnone] at hmsg
          cases hmsg
    · have ht' := bulkLoop_threw_spec run (chunksOf100 herbs) 0 0 0 s msg hb
      have hs : s ≤ herbs.length := by
        have := ht'.2
        rw [chunksOf100_sumLens] at this
        simpa using this
      by_cases ht : optTruthy msg = true
      · have hres : bulkUpsertHerbs true herbs run =
            ⟨0, herbs.length, msg⟩ := by
          simp [bulkUpsertHerbs, hb, ht]
        rw [hres]
        exact ⟨by simp, fun m _ _ => ⟨rfl, rfl⟩⟩
      · have hres : bulkUpsertHerbs true herbs run =
            ⟨s, herbs.length - s, msg⟩ := by
          simp [bulkUpsertHerbs, hb, ht]
        rw [hres]
        constructor
        · show s + (herbs.length - s) = herbs.length
          omega
        · intro m hm hne
          cases msg with
          | none => cases hm
          | some m' =>
            injection hm with hm'
            subst hm'
            exact absurd (by simp [optTruthy, hne]) ht

/-- Witness for C8 at a concrete critical batch error: the error is reported
and the counts are overridden to 0 and the input length. -/
theorem c8_bulkUpsertHerbs_counts_witness :
    (bulkUpsertHerbs true [()] (fun _ => .err true)).error = some tableMissingMsg ∧
    tableMissingMsg ≠ "" ∧
    ((bulkUpsertHerbs true [()] (fun _ => .err true)).success = 0 ∧
      (bulkUpsertHerbs true [()] (fun _ => .err true)).failed = [()].length) :=
  ⟨by decide, by decide,
    (c8_bulkUpsertHerbs_counts true [()] (fun _ => .err true)).2
      tableMissingMsg (by decide) (by decide)⟩

/-- The database behaviour for the C8 counterexample: the first batch
succeeds, the second throws an exception with an empty message. -/
def c8EmptyMsgRun : Nat → BatchResult :=
  fun k => if k = 0 then .ok else .exn (some "")

/-- Counterexample for C8 as stated: on 101 herbs (two batches) with an
exception whose message is the empty string, the returned error is
non-undefined (`some ""`) yet success is 100 and failed is 1, because the
`if (errorMessage)` truthiness check treats `""` as falsy and skips the
override. -/
theorem c8_counterexample_empty_exception_message :
    (bulkUpsertHerbs true (List.replicate 101 ()) c8EmptyMsgRun).error ≠ none ∧
    ¬((bulkUpsertHerbs true (List.replicate 101 ()) c8EmptyMsgRun).success = 0 ∧
      (bulkUpsertHerbs true (List.replicate 101 ()) c8EmptyMsgRun).failed =
        (List.replicate 101 ()).length) := by
  decide

/-! ### The tool-calling contract of `generateChatStream`
(`src/services/openaiService.ts` lines 1174–1217 and 581–610)

The request payload's `tools` array is a constant in each version of
`generateChatStream`.  Each declared tool is modelled by its function name
and its `required` parameter list. -/

/-- One entry of the `tools` array (function name and required parameters). -/
structure ToolDecl where
  fname : String
  required : List String
deriving DecidableEq, Repr

/-- The `tools` array of the context-managed `generateChatStream`
(lines 1174–1217). -/
def generateChatStream_tools : List ToolDecl :=
  [⟨"lookup_herb", ["query"]⟩,
   ⟨"update_prescription", ["prescription"]⟩,
   ⟨"regenerate_report", ["instructions"]⟩]

/-- The `tools` array of the earlier `generateChatStream` variant
(lines 581–610). -/
def generateChatStreamLegacy_tools : List ToolDecl :=
  [⟨"update_prescription", ["prescription"]⟩,
   ⟨"regenerate_report", ["instructions"]⟩]

/-- Claim C4 (amended): the context-managed `generateChatStream` declares
exactly the three tools `lookup_herb`, `update_prescription`,
`regenerate_report` in every payload it builds; the earlier variant declares
exactly the two tools `update_prescription` and `regenerate_report`, without
`lookup_herb`. -/
theorem c4_tools_declared :
    generateChatStream_tools.map (·.fname) =
      ["lookup_herb", "update_prescription", "regenerate_report"] ∧
    generateChatStreamLegacy_tools.map (·.fname) =
      ["update_prescription", "regenerate_report"] := by
  decide

/-- Counterexample for C4 as stated: the earlier `generateChatStream` builds
payloads whose `tools` array has two entries and does not declare
`lookup_herb`. -/
theorem c4_counterexample_legacy_tools :
    generateChatStreamLegacy_tools.map (·.fname) ≠
      ["lookup_herb", "update_prescription", "regenerate_report"] ∧
    "lookup_herb" ∉ generateChatStreamLegacy_tools.map (·.fname) ∧
    generateChatStreamLegacy_tools.length = 2 := by
  decide

/-- Witness for C10 at a concrete parse oracle and stream: the
`functionCalls` item is yielded at most once. -/
theorem c10_functionCalls_once_after_texts_witness :
    ((generateChatStream (fun _ => none) (fun _ => (none : Option Unit))
        ["data: x\n".data]).filter (fun i => isCallsItem i)).length ≤ 1 :=
  (c10_functionCalls_once_after_texts (fun _ => none) (fun _ => none)
    ["data: x\n".data]).2.1
